import Mathlib

/-!
Verification development for the cross-chain event ingestion core
(`pallets/cash/src/internal/events.rs`).

The embedding models the per-chain state machine: pending block tallies,
pending reorg tallies, the last processed block, the ingression queue,
the on-chain receivers `receive_chain_blocks` and `receive_chain_reorg`,
the ingression round `ingress_queue`, and the off-chain `formulate_reorg`
backward walk (fuel-indexed, one fuel unit per loop iteration).

External collaborators that are not part of this file of the repository
(price oracles behind `risk_adjusted_value`, the ledger mutators
`apply_chain_event_internal` / `unapply_chain_event_internal`, the quorum
predicates `has_enough_support` / `has_enough_dissent`, the RPC fetchers
and the worker-local recall cache, and the deployment parameters
`MIN_EVENT_BLOCKS` / `MAX_EVENT_BLOCKS` / `INGRESS_QUOTA`) are taken as
explicit parameters, following the contracts stated in the specification.
Machine integers (u64 block numbers, USD quantities) are modelled as Nat;
the only subtractions performed by the source are either guarded
(`checked_sub`), saturating (`saturating_sub`), or proven in range, all of
which agree with Nat subtraction.
-/

deriving instance DecidableEq for Except

namespace Gateway

/-- Error reasons carried by the pipeline (the subset of the `Reason` enum of the source reachable from the embedded functions, plus an `other`
constructor standing for the remaining variants that external
collaborators may return). -/
inductive Reason where
  | MissingBlock
  | BlockMismatch
  | HashMismatch
  | Unreachable
  | MathUnderflow
  | MathOverflow
  | WorkerBusy
  | FailedToSubmitExtrinsic
  | CryptoError
  | UnknownValidator
  | other (code : Nat)
deriving DecidableEq

/-- An underlying-chain block: `{number, hash, parent_hash, events}`.
Hashes are opaque 32-byte strings in the source, modelled as Nat;
event payloads are opaque to the pipeline and modelled as Nat. -/
structure EthereumBlock where
  number : Nat
  hash : Nat
  parentHash : Nat
  events : List Nat
deriving DecidableEq

/-- `ChainBlock`: tagged variant per chain (Eth or Matic), each carrying an
underlying block. -/
inductive ChainBlock where
  | eth (block : EthereumBlock)
  | matic (block : EthereumBlock)
deriving DecidableEq

/-- `ChainHash`: tagged variant per chain. -/
inductive ChainHash where
  | eth (h : Nat)
  | matic (h : Nat)
deriving DecidableEq

def ChainHash.isEth : ChainHash → Bool
  | .eth _ => true
  | .matic _ => false

def ChainBlock.inner : ChainBlock → EthereumBlock
  | .eth b => b
  | .matic b => b

def ChainBlock.number (cb : ChainBlock) : Nat := cb.inner.number

def ChainBlock.hash : ChainBlock → ChainHash
  | .eth b => .eth b.hash
  | .matic b => .matic b.hash

def ChainBlock.parentHash : ChainBlock → ChainHash
  | .eth b => .eth b.parentHash
  | .matic b => .matic b.parentHash

/-- `ChainBlockEvent`: a chain-tagged event together with the number of the
block it came from. -/
inductive ChainBlockEvent where
  | eth (blockNumber : Nat) (payload : Nat)
  | matic (blockNumber : Nat) (payload : Nat)
deriving DecidableEq

def ChainBlockEvent.blockNumber : ChainBlockEvent → Nat
  | .eth n _ => n
  | .matic n _ => n

/-- The events of a block as queue entries (`ChainBlockEvents::push` tags
each event of the block with the block number and chain). -/
def chainBlockEvents : ChainBlock → List ChainBlockEvent
  | .eth b => b.events.map (fun p => .eth b.number p)
  | .matic b => b.events.map (fun p => .matic b.number p)

/-- Modelled from the spec: validator identities are opaque; support and
dissent are sets of validator ids (`set<ValidatorId>`), here lists with
duplicate-free insertion. Inserting an already present member is a no-op. -/
def insertSet (v : Nat) (s : List Nat) : List Nat :=
  if v ∈ s then s else v :: s

/-- `ChainBlockTally`: a pending block with its support and dissent sets. -/
structure ChainBlockTally where
  block : ChainBlock
  support : List Nat
  dissent : List Nat
deriving DecidableEq

/-- Modelled from the spec: a new tally is seeded with the submitting signer
in its support set. -/
def ChainBlockTally.new (b : ChainBlock) (v : Nat) : ChainBlockTally :=
  ⟨b, [v], []⟩

/-- Modelled from the spec: `add_support` inserts the validator into the
support set. -/
def addSupport (v : Nat) (t : ChainBlockTally) : ChainBlockTally :=
  { t with support := insertSet v t.support }

/-- Modelled from the spec: `add_dissent` inserts the validator into the
dissent set. -/
def addDissent (v : Nat) (t : ChainBlockTally) : ChainBlockTally :=
  { t with dissent := insertSet v t.dissent }

/-- `ChainReorg`: `{from_hash, to_hash, reverse_blocks, forward_blocks}`.
The source stores per-variant raw block vectors; here the accessor view is
modelled directly, with the blocks re-tagged as the chain of the reorg (see
`retagEth` for how `formulate_reorg` builds an Eth reorg). -/
structure ChainReorg where
  fromHash : ChainHash
  toHash : ChainHash
  reverseBlocks : List ChainBlock
  forwardBlocks : List ChainBlock
deriving DecidableEq

/-- `ChainReorgTally`: a candidate reorg with its support set. -/
structure ChainReorgTally where
  reorg : ChainReorg
  support : List Nat
deriving DecidableEq

/-- Modelled from the spec: a new reorg tally is seeded with the signer. -/
def ChainReorgTally.new (r : ChainReorg) (v : Nat) : ChainReorgTally :=
  ⟨r, [v]⟩

def addReorgSupport (v : Nat) (t : ChainReorgTally) : ChainReorgTally :=
  { t with support := insertSet v t.support }

/-- Events deposited by the runtime while ingressing
(`ProcessedChainBlockEvent` / `FailedProcessingChainBlockEvent`). -/
inductive EventEmit where
  | processed (e : ChainBlockEvent)
  | failedProcessing (e : ChainBlockEvent) (r : Reason)
deriving DecidableEq

/-- The per-chain persisted singletons:
`LastProcessedBlock`, `PendingChainBlocks`, `PendingChainReorgs`,
`IngressionQueue`. -/
structure ChainState where
  lastBlock : ChainBlock
  pendingBlocks : List ChainBlockTally
  pendingReorgs : List ChainReorgTally
  eventQueue : List ChainBlockEvent
deriving DecidableEq

/-- The external collaborators and deployment parameters consumed by the
pipeline, as contracts (see spec §6): maturity window and quota constants,
the risk-value oracle standing for `risk_adjusted_value` (whose own body
consults the price oracle and decay curve), the ledger mutators, and the
quorum predicates over the validator set. -/
structure Env where
  minEventBlocks : Nat
  maxEventBlocks : Nat
  ingressQuota : Nat
  rav : ChainBlockEvent → Nat → Except Reason Nat
  applyEvent : ChainBlockEvent → Except Reason Unit
  unapplyEvent : ChainBlockEvent → Except Reason Unit
  hasEnoughSupport : ChainBlockTally → List Nat → Bool
  hasEnoughDissent : ChainBlockTally → List Nat → Bool
  hasEnoughReorgSupport : ChainReorgTally → List Nat → Bool

/-- Disposition of one event inside the `ingress_queue` retain closure
(source lines 197-256): returns (retain?, remaining quota, emitted events).
`delta` is `block_num.saturating_sub(event.block_number())`; if the event is
mature and beyond `MAX_EVENT_BLOCKS` the risk value is taken as 0 without
consulting `risk_adjusted_value`; the quota cost of an accepted event is deducted and
`apply_chain_event_internal` is attempted, emitting `Processed...` or
`FailedProcessing...` and removing the event either way. -/
def ingressStep (minB maxB : Nat) (rav : ChainBlockEvent → Nat → Except Reason Nat)
    (applyEvent : ChainBlockEvent → Except Reason Unit)
    (blockNum avail : Nat) (e : ChainBlockEvent) : Bool × Nat × List EventEmit :=
  if minB ≤ blockNum - e.blockNumber then
    match (if maxB < blockNum - e.blockNumber then Except.ok 0 else rav e blockNum) with
    | .ok value =>
      if value ≤ avail then
        match applyEvent e with
        | .ok _ => (false, avail - value, [.processed e])
        | .error r => (false, avail - value, [.failedProcessing e r])
      else (true, avail, [])
    | .error _ => (true, avail, [])
  else (true, avail, [])

/-- The `event_queue.retain(...)` traversal of `ingress_queue`, threading the
remaining quota left to right and collecting the retained events and the
deposited runtime events. -/
def ingressRunAux (minB maxB : Nat) (rav : ChainBlockEvent → Nat → Except Reason Nat)
    (applyEvent : ChainBlockEvent → Except Reason Unit) (blockNum : Nat) :
    Nat → List ChainBlockEvent → List ChainBlockEvent × List EventEmit
  | _, [] => ([], [])
  | avail, e :: rest =>
    let step := ingressStep minB maxB rav applyEvent blockNum avail e
    let tail := ingressRunAux minB maxB rav applyEvent blockNum step.2.1 rest
    (if step.1 then e :: tail.1 else tail.1, step.2.2 ++ tail.2)

/-- One `ingress_queue` round: quota starts at `INGRESS_QUOTA`. -/
def ingressRun (minB maxB : Nat) (rav : ChainBlockEvent → Nat → Except Reason Nat)
    (applyEvent : ChainBlockEvent → Except Reason Unit) (blockNum quota : Nat)
    (q : List ChainBlockEvent) : List ChainBlockEvent × List EventEmit :=
  ingressRunAux minB maxB rav applyEvent blockNum quota q

/-- `ingress_queue` as it appears to its callers: its body never produces an
error (the source returns `Ok(())` on every path; per-event apply failures
are converted into deposited events inside the retain closure). -/
def ingressQueue (minB maxB : Nat) (rav : ChainBlockEvent → Nat → Except Reason Nat)
    (applyEvent : ChainBlockEvent → Except Reason Unit) (blockNum quota : Nat)
    (q : List ChainBlockEvent) : Except Reason (List ChainBlockEvent × List EventEmit) :=
  .ok (ingressRun minB maxB rav applyEvent blockNum quota q)

/-- The per-block body of the first loop of `receive_chain_blocks`
(source lines 397-461): stale blocks are ignored; a block at an occupied
offset supports or dissents the existing tally; a block at the next free
offset is appended only when its parent hash matches the expected parent
(the last processed block for offset 0, the preceding tally otherwise);
anything else is ignored. -/
def processBlock (lastB : ChainBlock) (v : Nat) (p : List ChainBlockTally)
    (b : ChainBlock) : List ChainBlockTally :=
  if lastB.number + 1 ≤ b.number then
    match p.get? (b.number - lastB.number - 1) with
    | some prior =>
      if b ≠ prior.block then p.set (b.number - lastB.number - 1) (addDissent v prior)
      else p.set (b.number - lastB.number - 1) (addSupport v prior)
    | none =>
      if b.number - lastB.number - 1 = 0 then
        if b.parentHash ≠ lastB.hash then p
        else p ++ [ChainBlockTally.new b v]
      else
        match p.get? (b.number - lastB.number - 1 - 1) with
        | some parent =>
          if b.parentHash ≠ parent.block.hash then p
          else p ++ [ChainBlockTally.new b v]
        | none => p
  else p

/-- Result of the advance loop of `receive_chain_blocks` (and of the whole
receiver): pending tallies, last processed block, ingression queue, and the
runtime events deposited by the ingression rounds it triggered. -/
structure BlocksOutcome where
  pending : List ChainBlockTally
  lastBlock : ChainBlock
  queue : List ChainBlockEvent
  emits : List EventEmit
deriving DecidableEq

/-- The second loop of `receive_chain_blocks` (source lines 463-479):
greedily pop the head tally while it has quorum support, pushing its events
and running an ingression round; on quorum dissent purge every pending
tally; otherwise stop. -/
def advanceTallies (env : Env) (vset : List Nat) :
    List ChainBlockTally → ChainBlock → List ChainBlockEvent → BlocksOutcome
  | [], lastB, q => ⟨[], lastB, q, []⟩
  | t :: rest, lastB, q =>
    if env.hasEnoughSupport t vset then
      let q1 := q ++ chainBlockEvents t.block
      let res := ingressRun env.minEventBlocks env.maxEventBlocks env.rav env.applyEvent
        t.block.number env.ingressQuota q1
      let out := advanceTallies env vset rest t.block res.1
      ⟨out.pending, out.lastBlock, out.queue, res.2 ++ out.emits⟩
    else if env.hasEnoughDissent t vset then ⟨[], lastB, q, []⟩
    else ⟨t :: rest, lastB, q, []⟩

/-- `receive_chain_blocks` after its authentication prologue (validator
recovery and set membership can only fail before any state is read or
written): tally every block of the message in order, then advance, then
persist the three singletons. The recovered validator, validator set and
quorum predicates are parameters. -/
def receiveChainBlocks (env : Env) (vset : List Nat) (v : Nat)
    (blocks : List ChainBlock) (s : ChainState) : ChainState :=
  { lastBlock :=
      (advanceTallies env vset
        (blocks.foldl (fun p b => processBlock s.lastBlock v p b) s.pendingBlocks)
        s.lastBlock s.eventQueue).lastBlock,
    pendingBlocks :=
      (advanceTallies env vset
        (blocks.foldl (fun p b => processBlock s.lastBlock v p b) s.pendingBlocks)
        s.lastBlock s.eventQueue).pending,
    pendingReorgs := s.pendingReorgs,
    eventQueue :=
      (advanceTallies env vset
        (blocks.foldl (fun p b => processBlock s.lastBlock v p b) s.pendingBlocks)
        s.lastBlock s.eventQueue).queue }

/-- Remove the first occurrence of an element (the position-based
`position` + `remove`). -/
def eraseFirst {α : Type} [DecidableEq α] : List α → α → List α
  | [], _ => []
  | x :: xs, a => if x = a then xs else x :: eraseFirst xs a

/-- Record the incoming vote on the matching pending reorg tally
(`iter_mut().find(...)` updates the first structurally equal tally),
appending a fresh tally when none matches. -/
def tallyReorgVote (v : Nat) (reorg : ChainReorg) :
    List ChainReorgTally → List ChainReorgTally
  | [] => [ChainReorgTally.new reorg v]
  | rt :: rest =>
    if rt.reorg = reorg then addReorgSupport v rt :: rest
    else rt :: tallyReorgVote v reorg rest

/-- The tally the vote landed on (the element `tally` borrowed by the
source after the find-or-push). -/
def votedTally (v : Nat) (reorg : ChainReorg) (pending : List ChainReorgTally) :
    ChainReorgTally :=
  match pending.find? (fun rt => rt.reorg = reorg) with
  | some rt => addReorgSupport v rt
  | none => ChainReorgTally.new reorg v

/-- Revert phase over the events of one block: an event still on the queue is
removed at its first position, otherwise `unapply_chain_event_internal` is
invoked and its error aborts the whole reorg. -/
def revertEvents (unapplyEvent : ChainBlockEvent → Except Reason Unit) :
    List ChainBlockEvent → List ChainBlockEvent → Except Reason (List ChainBlockEvent)
  | q, [] => .ok q
  | q, e :: es =>
    if e ∈ q then revertEvents unapplyEvent (eraseFirst q e) es
    else
      match unapplyEvent e with
      | .ok _ => revertEvents unapplyEvent q es
      | .error r => .error r

/-- Revert phase over the reverse blocks of the reorg (newest to oldest, in the
stored order). -/
def revertBlocks (unapplyEvent : ChainBlockEvent → Except Reason Unit) :
    List ChainBlockEvent → List ChainBlock → Except Reason (List ChainBlockEvent)
  | q, [] => .ok q
  | q, b :: rest =>
    match revertEvents unapplyEvent q (chainBlockEvents b) with
    | .ok q1 => revertBlocks unapplyEvent q1 rest
    | .error r => .error r

/-- Forward phase: for each forward block push its events, advance the last
block and run an ingression round; returns the final last block, queue and
deposited events. -/
def forwardRun (env : Env) :
    List ChainBlock → ChainBlock → List ChainBlockEvent →
    ChainBlock × List ChainBlockEvent × List EventEmit
  | [], lastB, q => (lastB, q, [])
  | b :: rest, _, q =>
    let q1 := q ++ chainBlockEvents b
    let res := ingressRun env.minEventBlocks env.maxEventBlocks env.rav env.applyEvent
      b.number env.ingressQuota q1
    let out := forwardRun env rest b res.1
    (out.1, out.2.1, res.2 ++ out.2.2)

/-- `receive_chain_reorg` after its authentication prologue (source lines
489-548): require `from_hash` to match the last processed block, record the
vote, and on quorum support revert the reverse blocks, replay the forward
blocks, and reset both pending collections; otherwise persist only the
updated reorg tallies. An error return models the atomic abort behaviour
(nothing is persisted on error). -/
def receiveChainReorg (env : Env) (vset : List Nat) (v : Nat)
    (reorg : ChainReorg) (s : ChainState) : Except Reason ChainState :=
  if reorg.fromHash ≠ s.lastBlock.hash then .error .HashMismatch
  else if env.hasEnoughReorgSupport (votedTally v reorg s.pendingReorgs) vset then
    match revertBlocks env.unapplyEvent s.eventQueue reorg.reverseBlocks with
    | .error r => .error r
    | .ok q1 =>
      .ok { lastBlock := (forwardRun env reorg.forwardBlocks s.lastBlock q1).1,
            pendingBlocks := [], pendingReorgs := [],
            eventQueue := (forwardRun env reorg.forwardBlocks s.lastBlock q1).2.1 }
  else .ok { s with pendingReorgs := tallyReorgVote v reorg s.pendingReorgs }

/-- The persisted outcome of a `receive_chain_reorg` message: substrate
aborts the message atomically on error, leaving the state untouched. -/
def receiveChainReorgRun (env : Env) (vset : List Nat) (v : Nat)
    (reorg : ChainReorg) (s : ChainState) : ChainState :=
  match receiveChainReorg env vset v reorg s with
  | .ok s1 => s1
  | .error _ => s

/-- The worker-side oracles consumed by `formulate_reorg`:
`recall` stands for `recall_chain_block` (local cache with RPC fallback;
its only failure mode is `MissingBlock`, hence an Option), and `fetch`
stands for `fetch_chain_block`, whose errors propagate as produced. -/
structure FormulateEnv where
  recallBlock : ChainHash → Option ChainBlock
  fetch : Nat → Except Reason ChainBlock

/-- The dual backward walk of `formulate_reorg` (source lines 318-344),
fuel-indexed with one fuel unit consumed per loop iteration; `none` means
the iteration budget was exhausted before the loop ended. Each iteration:
require equal heights (else `BlockMismatch`), compute the next height
(`checked_sub`, else Underflow), recall the previous trusted block (else
`MissingBlock`), fetch the true block at the next height (errors
propagate), append both, and stop on a common parent hash or on reaching
the height of the first block. -/
def walkAux (fe : FormulateEnv) (firstNum : Nat) :
    Nat → ChainBlock → ChainBlock → List ChainBlock → List ChainBlock →
    Option (Except Reason (List ChainBlock × List ChainBlock))
  | 0, _, _, _, _ => none
  | fuel + 1, revNext, fwdNext, revAcc, fwdAcc =>
    if revNext.number ≠ fwdNext.number then some (.error .BlockMismatch)
    else if fwdNext.number = 0 then some (.error .MathUnderflow)
    else
      match fe.recallBlock revNext.parentHash with
      | none => some (.error .MissingBlock)
      | some rev2 =>
        match fe.fetch (fwdNext.number - 1) with
        | .error r => some (.error r)
        | .ok fwd2 =>
          if rev2.parentHash = fwd2.parentHash then
            some (.ok (revAcc ++ [rev2], fwdAcc ++ [fwd2]))
          else if rev2.number = firstNum then
            some (.ok (revAcc ++ [rev2], fwdAcc ++ [fwd2]))
          else walkAux fe firstNum fuel rev2 fwd2 (revAcc ++ [rev2]) (fwdAcc ++ [fwd2])

/-- The permissive collection filter of `formulate_reorg`: both Eth and
Matic walked blocks are admitted into the block vectors of the Eth reorg
(the permissive `filter_map` keeps the inner block of either variant). -/
def retagEth (cb : ChainBlock) : ChainBlock := .eth cb.inner

/-- `formulate_reorg` (source lines 303-368), with the starport and first
block resolved by the caller: run the walk from the two heads (both
endpoints included up front), then build an Eth reorg when both head
hashes are Eth variants, `reverse_blocks` kept newest to oldest and
`forward_blocks` reversed to oldest to newest; any other hash pairing is
`Unreachable`. -/
def formulateReorg (fuel : Nat) (fe : FormulateEnv) (firstNum : Nat)
    (lastBlock trueBlock : ChainBlock) : Option (Except Reason ChainReorg) :=
  match walkAux fe firstNum fuel lastBlock trueBlock [lastBlock] [trueBlock] with
  | none => none
  | some (.error r) => some (.error r)
  | some (.ok (rev, fwd)) =>
    match lastBlock.hash, trueBlock.hash with
    | .eth f, .eth t =>
      some (.ok { fromHash := .eth f, toHash := .eth t,
                  reverseBlocks := rev.map retagEth,
                  forwardBlocks := (fwd.map retagEth).reverse })
    | _, _ => some (.error .Unreachable)

/-- The strict parent-hash chain predicate: each tally carries a block whose parent hash is the hash of the
preceding block, rooted at the given hash. -/
def tallyChainB : ChainHash → List ChainBlockTally → Bool
  | _, [] => true
  | h, t :: rest =>
    if t.block.parentHash = h then tallyChainB t.block.hash rest else false

/-- The event an emitted runtime event refers to. -/
def emitEvent : EventEmit → ChainBlockEvent
  | .processed e => e
  | .failedProcessing e _ => e

/-! Concrete fixtures used to witness the theorems below on explicit inputs. -/

/-- A trivial risk oracle (every event values 0 USD). -/
def ravZero : ChainBlockEvent → Nat → Except Reason Nat := fun _ _ => .ok 0

/-- A risk oracle that always fails (for instance, no oracle price posted). -/
def ravErr : ChainBlockEvent → Nat → Except Reason Nat := fun _ _ => .error .Unreachable

/-- A ledger mutator that always succeeds. -/
def applyOk : ChainBlockEvent → Except Reason Unit := fun _ => .ok ()

/-- A ledger mutator that always fails. -/
def applyFail : ChainBlockEvent → Except Reason Unit := fun _ => .error (.other 0)

/-- Environment in which no quorum predicate ever fires. -/
def envNQ : Env :=
  { minEventBlocks := 3, maxEventBlocks := 10, ingressQuota := 100,
    rav := ravZero, applyEvent := applyOk, unapplyEvent := applyOk,
    hasEnoughSupport := fun _ _ => false, hasEnoughDissent := fun _ _ => false,
    hasEnoughReorgSupport := fun _ _ => false }

/-- Environment in which every reorg tally has quorum support. -/
def envRQ : Env := { envNQ with hasEnoughReorgSupport := fun _ _ => true }

def blk1 : ChainBlock := .eth ⟨1, 1, 0, []⟩
def blk2 : ChainBlock := .eth ⟨2, 2, 1, []⟩
def blk3 : ChainBlock := .eth ⟨3, 3, 2, []⟩
def blkBadParent : ChainBlock := .eth ⟨2, 9, 55, []⟩
def blkBadChild : ChainBlock := .eth ⟨3, 9, 55, []⟩
def blkStale : ChainBlock := .eth ⟨1, 8, 0, []⟩

def st0 : ChainState := ⟨blk1, [], [], []⟩

/-- A reorg message rooted at `blk1` with empty paths and an unrelated
target hash. -/
def rgEmpty : ChainReorg := ⟨blk1.hash, .eth 77, [], []⟩

/-- A reorg message rooted at `blk1` whose single forward block is `blk2`. -/
def rgFwd : ChainReorg := ⟨blk1.hash, .eth 2, [], [blk2]⟩

/-- A reorg message whose `from_hash` does not match `blk1`. -/
def rgBad : ChainReorg := ⟨.eth 999, .eth 77, [], []⟩

def evYoung : ChainBlockEvent := .eth 19 1
def evExact : ChainBlockEvent := .eth 17 1
def evOld : ChainBlockEvent := .eth 0 42

/-- A formulate environment with nothing recallable or fetchable. -/
def feUF : FormulateEnv := ⟨fun _ => none, fun _ => .error .MissingBlock⟩

def zb1 : ChainBlock := .eth ⟨0, 5, 9, []⟩
def zb2 : ChainBlock := .eth ⟨0, 6, 9, []⟩

/-- A height-honest environment in which the two forks from height 2 reach
blocks at height 0 sharing a parent hash; the walk succeeds only at the
second iteration. -/
def fe9 : FormulateEnv :=
  { recallBlock := fun h =>
      match h with
      | .eth 99 => some (.eth ⟨1, 99, 98, []⟩)
      | .eth 98 => some (.eth ⟨0, 98, 0, []⟩)
      | _ => none,
    fetch := fun n =>
      match n with
      | 1 => .ok (.eth ⟨1, 199, 198, []⟩)
      | 0 => .ok (.eth ⟨0, 198, 0, []⟩)
      | _ => .error .MissingBlock }

def lb9 : ChainBlock := .eth ⟨2, 100, 99, []⟩
def tb9 : ChainBlock := .eth ⟨2, 200, 199, []⟩

/-- Recall cache holding exactly the parent of `lbH`, at height 1. -/
def recallH : ChainHash → Option ChainBlock :=
  fun h => if h = .eth 99 then some (.eth ⟨1, 99, 98, []⟩) else none

/-- A fetcher returning a block at every requested height. -/
def fetchH : Nat → Except Reason ChainBlock :=
  fun n => .ok (.eth ⟨n, 1000 + n, 900 + n, []⟩)

/-- A height-honest environment for the amended termination bound: the
recall cache holds the parent of `lbH` at height 1 (the height of the first block) and the fetcher returns a block at every requested height. -/
def feH : FormulateEnv := ⟨recallH, fetchH⟩

/-- Height assignment for the hashes of `feH`. -/
def hgtH : ChainHash → Nat := fun h => if h = .eth 99 then 1 else 0

def lbH : ChainBlock := .eth ⟨2, 100, 99, []⟩
def tbH : ChainBlock := .eth ⟨2, 200, 199, []⟩

/-- A Matic-only formulate environment whose walk succeeds in one
iteration. -/
def fe10 : FormulateEnv :=
  { recallBlock := fun h =>
      match h with
      | .matic 5 => some (.matic ⟨0, 5, 0, []⟩)
      | _ => none,
    fetch := fun n =>
      match n with
      | 0 => .ok (.matic ⟨0, 6, 0, []⟩)
      | _ => .error .MissingBlock }

def mlb : ChainBlock := .matic ⟨1, 10, 5, []⟩
def mtb : ChainBlock := .matic ⟨1, 20, 6, []⟩

/-! Helper lemmas. -/

theorem tallyChainB_cons (h : ChainHash) (a : ChainBlockTally) (l : List ChainBlockTally) :
    tallyChainB h (a :: l) = true ↔
      (a.block.parentHash = h ∧ tallyChainB a.block.hash l = true) := by
  rw [tallyChainB]
  split
  · rename_i hc; simp [hc]
  · rename_i hc; simp [hc]

theorem tallyChainB_set (p : List ChainBlockTally) :
    ∀ (h : ChainHash) (i : Nat) (t tB : ChainBlockTally), p.get? i = some t →
      tB.block = t.block → tallyChainB h (p.set i tB) = tallyChainB h p := by
  induction p with
  | nil => intro h i t tB hget _; simp at hget
  | cons a rest ih =>
    intro h i t tB hget hblock
    cases i with
    | zero =>
      simp only [List.get?] at hget
      cases hget
      simp only [List.set, tallyChainB, hblock]
    | succ n =>
      simp only [List.get?] at hget
      simp only [List.set, tallyChainB, ih _ n t tB hget hblock]

theorem tallyChainB_concat (p : List ChainBlockTally) :
    ∀ (h : ChainHash) (t nt : ChainBlockTally), tallyChainB h p = true →
      p.get? (p.length - 1) = some t → nt.block.parentHash = t.block.hash →
      tallyChainB h (p ++ [nt]) = true := by
  induction p with
  | nil => intro h t nt _ hget; simp at hget
  | cons a rest ih =>
    intro h t nt hchain hget hpar
    obtain ⟨hroot, htail⟩ := (tallyChainB_cons h a rest).mp hchain
    cases rest with
    | nil =>
      simp only [List.get?] at hget
      cases hget
      refine (tallyChainB_cons h a [nt]).mpr ⟨hroot, ?_⟩
      exact (tallyChainB_cons a.block.hash nt []).mpr ⟨hpar, rfl⟩
    | cons a2 rest2 =>
      refine (tallyChainB_cons h a ((a2 :: rest2) ++ [nt])).mpr ⟨hroot, ?_⟩
      refine ih a.block.hash t nt htail ?_ hpar
      simpa using hget

theorem length_le_of_get?_none {α : Type} {p : List α} {i : Nat}
    (h : p.get? i = none) : p.length ≤ i :=
  List.get?_eq_none.mp h

theorem lt_length_of_get?_some {α : Type} {p : List α} {i : Nat} {a : α}
    (h : p.get? i = some a) : i < p.length := by
  by_contra hc
  rw [List.get?_eq_none.mpr (Nat.le_of_not_lt hc)] at h
  exact Option.noConfusion h

theorem get?_set_self {α : Type} (p : List α) (i : Nat) (a b : α)
    (h : p.get? i = some a) : (p.set i b).get? i = some b := by
  rw [List.get?_set_eq, h]
  rfl

theorem set_concat_self {α : Type} (p : List α) (a : α) :
    (p ++ [a]).set p.length a = p ++ [a] := by
  induction p with
  | nil => rfl
  | cons x xs ih =>
    simpa [List.cons_append, List.set] using ih

/-- The tally pass of `receive_chain_blocks` preserves the parent-hash chain
rooted at the (unchanged during this pass) last processed block. -/
theorem chain_processBlock (lastB : ChainBlock) (v : Nat) (p : List ChainBlockTally)
    (b : ChainBlock) (h : tallyChainB lastB.hash p = true) :
    tallyChainB lastB.hash (processBlock lastB v p b) = true := by
  unfold processBlock
  by_cases hnum : lastB.number + 1 ≤ b.number
  · rw [if_pos hnum]
    cases hget : p.get? (b.number - lastB.number - 1) with
    | some prior =>
      simp only [hget]
      by_cases hb : b ≠ prior.block
      · rw [if_pos hb, tallyChainB_set p lastB.hash _ prior (addDissent v prior) hget rfl]
        exact h
      · rw [if_neg hb, tallyChainB_set p lastB.hash _ prior (addSupport v prior) hget rfl]
        exact h
    | none =>
      simp only [hget]
      by_cases hoff : b.number - lastB.number - 1 = 0
      · rw [if_pos hoff]
        by_cases hpar : b.parentHash ≠ lastB.hash
        · rw [if_pos hpar]; exact h
        · rw [if_neg hpar]
          have hp : p = [] := by
            have hl := length_le_of_get?_none hget
            rw [hoff] at hl
            exact List.eq_nil_of_length_eq_zero (Nat.le_zero.mp hl)
          subst hp
          have hpar2 : b.parentHash = lastB.hash := not_not.mp hpar
          simp [tallyChainB, ChainBlockTally.new, hpar2]
      · rw [if_neg hoff]
        cases hgetp : p.get? (b.number - lastB.number - 1 - 1) with
        | some parent =>
          simp only [hgetp]
          by_cases hpar : b.parentHash ≠ parent.block.hash
          · rw [if_pos hpar]; exact h
          · rw [if_neg hpar]
            have hpar2 : b.parentHash = parent.block.hash := not_not.mp hpar
            have hlen : p.length ≤ b.number - lastB.number - 1 :=
              length_le_of_get?_none hget
            have hlt : b.number - lastB.number - 1 - 1 < p.length :=
              lt_length_of_get?_some hgetp
            have heq : b.number - lastB.number - 1 - 1 = p.length - 1 := by omega
            rw [heq] at hgetp
            exact tallyChainB_concat p lastB.hash parent (ChainBlockTally.new b v) h
              hgetp hpar2
        | none =>
          simp only [hgetp]
          exact h
  · rw [if_neg hnum]
    exact h

/-- Folding the tally pass over a whole message preserves the chain. -/
theorem chain_foldl (blocks : List ChainBlock) :
    ∀ (lastB : ChainBlock) (v : Nat) (p : List ChainBlockTally),
      tallyChainB lastB.hash p = true →
      tallyChainB lastB.hash
        (blocks.foldl (fun p b => processBlock lastB v p b) p) = true := by
  induction blocks with
  | nil => intro lastB v p h; exact h
  | cons b rest ih =>
    intro lastB v p h
    exact ih lastB v (processBlock lastB v p b) (chain_processBlock lastB v p b h)

/-- The advance loop of `receive_chain_blocks` preserves the chain: popping
a supported head re-roots the chain at the accepted block, a dissent purge
empties it. -/
theorem chain_advance (env : Env) (vset : List Nat) (p : List ChainBlockTally) :
    ∀ (lastB : ChainBlock) (q : List ChainBlockEvent),
      tallyChainB lastB.hash p = true →
      tallyChainB (advanceTallies env vset p lastB q).lastBlock.hash
        (advanceTallies env vset p lastB q).pending = true := by
  induction p with
  | nil => intro lastB q _; simp [advanceTallies, tallyChainB]
  | cons t rest ih =>
    intro lastB q hchain
    obtain ⟨_, htail⟩ := (tallyChainB_cons lastB.hash t rest).mp hchain
    rw [advanceTallies]
    split
    · exact ih t.block _ htail
    · split
      · simp [tallyChainB]
      · exact hchain

/-- Claim C1: every message accepted by `receive_chain_blocks` preserves the
invariant that the stored pending tallies of the chain form a strict
parent-hash chain rooted at the stored last processed block: the parent hash
of the first pending block is the hash of the last processed block, and
the parent hash of every later pending block is the hash of the previous
pending block,
assuming this held before the call. -/
theorem claim_C1_receive_blocks_preserves_chain (env : Env) (vset : List Nat)
    (v : Nat) (blocks : List ChainBlock) (s : ChainState)
    (h : tallyChainB s.lastBlock.hash s.pendingBlocks = true) :
    tallyChainB (receiveChainBlocks env vset v blocks s).lastBlock.hash
      (receiveChainBlocks env vset v blocks s).pendingBlocks = true := by
  unfold receiveChainBlocks
  exact chain_advance env vset _ s.lastBlock s.eventQueue
    (chain_foldl blocks s.lastBlock v s.pendingBlocks h)

/-- Witness for C1 at a concrete input: two valid successive blocks arrive
on an empty pending list. -/
theorem claim_C1_witness :
    tallyChainB (receiveChainBlocks envNQ [7] 7 [blk2, blk3] st0).lastBlock.hash
      (receiveChainBlocks envNQ [7] 7 [blk2, blk3] st0).pendingBlocks = true :=
  claim_C1_receive_blocks_preserves_chain envNQ [7] 7 [blk2, blk3] st0 (by decide)

/-- Claim C3: a reorg message whose `from_hash` differs from the hash of the stored
last processed block is rejected with `HashMismatch`, and the message
aborts atomically, leaving the whole per-chain state (last block, pending
blocks, pending reorgs, ingression queue) unchanged. -/
theorem claim_C3_hash_mismatch_rejected (env : Env) (vset : List Nat) (v : Nat)
    (reorg : ChainReorg) (s : ChainState)
    (h : reorg.fromHash ≠ s.lastBlock.hash) :
    receiveChainReorg env vset v reorg s = .error .HashMismatch ∧
      receiveChainReorgRun env vset v reorg s = s := by
  have h1 : receiveChainReorg env vset v reorg s = .error .HashMismatch := by
    unfold receiveChainReorg
    rw [if_pos h]
  refine ⟨h1, ?_⟩
  unfold receiveChainReorgRun
  rw [h1]

/-- Witness for C3 at a concrete input. -/
theorem claim_C3_witness :
    receiveChainReorg envRQ [7] 7 rgBad st0 = .error .HashMismatch ∧
      receiveChainReorgRun envRQ [7] 7 rgBad st0 = st0 :=
  claim_C3_hash_mismatch_rejected envRQ [7] 7 rgBad st0 (by decide)

/-- Claim C6: in `receive_chain_blocks`, a block at the next expected offset
whose parent hash does not match its expected parent — the hash of the last
processed block at offset 0, the block hash of the preceding pending tally at a
positive offset — is ignored: the pending tallies are unchanged, so no new
tally is created and no dissent is recorded; and a block whose number is at
most the number of the last processed block is ignored as stale. -/
theorem claim_C6_mismatch_ignored :
    (∀ (lastB : ChainBlock) (v : Nat) (p : List ChainBlockTally) (b : ChainBlock),
      lastB.number + 1 ≤ b.number →
      p.get? (b.number - lastB.number - 1) = none →
      b.number - lastB.number - 1 = 0 →
      b.parentHash ≠ lastB.hash → processBlock lastB v p b = p) ∧
    (∀ (lastB : ChainBlock) (v : Nat) (p : List ChainBlockTally) (b : ChainBlock)
      (t : ChainBlockTally),
      lastB.number + 1 ≤ b.number →
      p.get? (b.number - lastB.number - 1) = none →
      b.number - lastB.number - 1 ≠ 0 →
      p.get? (b.number - lastB.number - 1 - 1) = some t →
      b.parentHash ≠ t.block.hash → processBlock lastB v p b = p) ∧
    (∀ (lastB : ChainBlock) (v : Nat) (p : List ChainBlockTally) (b : ChainBlock),
      b.number ≤ lastB.number → processBlock lastB v p b = p) := by
  refine ⟨?_, ?_, ?_⟩
  · intro lastB v p b hnum hnone hoff hpar
    unfold processBlock
    rw [if_pos hnum]
    simp only [hnone]
    rw [if_pos hoff, if_pos hpar]
  · intro lastB v p b t hnum hnone hoff hgetp hpar
    unfold processBlock
    rw [if_pos hnum]
    simp only [hnone]
    rw [if_neg hoff]
    simp only [hgetp]
    rw [if_pos hpar]
  · intro lastB v p b hnum
    unfold processBlock
    rw [if_neg (by omega)]

/-- Witness for C6 at concrete inputs: a first block with a wrong parent, a
derivative block with a wrong parent, and a stale block, all ignored. -/
theorem claim_C6_witness :
    processBlock blk1 7 [] blkBadParent = [] ∧
      processBlock blk1 7 [ChainBlockTally.new blk2 7] blkBadChild =
        [ChainBlockTally.new blk2 7] ∧
      processBlock blk1 7 [] blkStale = [] :=
  ⟨claim_C6_mismatch_ignored.1 blk1 7 [] blkBadParent (by decide) (by decide)
      (by decide) (by decide),
    claim_C6_mismatch_ignored.2.1 blk1 7 [ChainBlockTally.new blk2 7] blkBadChild
      (ChainBlockTally.new blk2 7) (by decide) (by decide) (by decide) (by decide)
      (by decide),
    claim_C6_mismatch_ignored.2.2 blk1 7 [] blkStale (by decide)⟩

theorem ingressRunAux_nil (minB maxB : Nat) (rav : ChainBlockEvent → Nat → Except Reason Nat)
    (applyEvent : ChainBlockEvent → Except Reason Unit) (blockNum avail : Nat) :
    ingressRunAux minB maxB rav applyEvent blockNum avail [] = ([], []) := rfl

theorem ingressRunAux_cons (minB maxB : Nat) (rav : ChainBlockEvent → Nat → Except Reason Nat)
    (applyEvent : ChainBlockEvent → Except Reason Unit) (blockNum avail : Nat)
    (e1 : ChainBlockEvent) (rest : List ChainBlockEvent) :
    ingressRunAux minB maxB rav applyEvent blockNum avail (e1 :: rest) =
      ((if (ingressStep minB maxB rav applyEvent blockNum avail e1).1
        then e1 :: (ingressRunAux minB maxB rav applyEvent blockNum
          (ingressStep minB maxB rav applyEvent blockNum avail e1).2.1 rest).1
        else (ingressRunAux minB maxB rav applyEvent blockNum
          (ingressStep minB maxB rav applyEvent blockNum avail e1).2.1 rest).1),
       (ingressStep minB maxB rav applyEvent blockNum avail e1).2.2 ++
        (ingressRunAux minB maxB rav applyEvent blockNum
          (ingressStep minB maxB rav applyEvent blockNum avail e1).2.1 rest).2) := rfl

/-- Every runtime event deposited while handling one queue entry refers to
that entry. -/
theorem step_emits_self (minB maxB : Nat) (rav : ChainBlockEvent → Nat → Except Reason Nat)
    (applyEvent : ChainBlockEvent → Except Reason Unit) (blockNum avail : Nat)
    (e : ChainBlockEvent) :
    ∀ em ∈ (ingressStep minB maxB rav applyEvent blockNum avail e).2.2,
      emitEvent em = e := by
  unfold ingressStep
  split
  · split
    · split
      · split
        · simp [emitEvent]
        · simp [emitEvent]
      · simp
    · simp
  · simp

/-- A queue entry strictly younger than the maturity threshold is kept with
no quota change and no deposited event. -/
theorem step_too_young (minB maxB : Nat) (rav : ChainBlockEvent → Nat → Except Reason Nat)
    (applyEvent : ChainBlockEvent → Except Reason Unit) (blockNum avail : Nat)
    (e : ChainBlockEvent) (hd : blockNum - e.blockNumber < minB) :
    ingressStep minB maxB rav applyEvent blockNum avail e = (true, avail, []) := by
  unfold ingressStep
  rw [if_neg (by omega)]

/-- A queue entry beyond `MAX_EVENT_BLOCKS` is charged a risk value of 0 and
accepted: the risk oracle is never consulted, the quota is unchanged, and
the entry is removed with the ledger application attempted. -/
theorem step_beyond_max (minB maxB : Nat) (rav : ChainBlockEvent → Nat → Except Reason Nat)
    (applyEvent : ChainBlockEvent → Except Reason Unit) (blockNum avail : Nat)
    (e : ChainBlockEvent) (hmx : minB ≤ maxB) (hd : maxB < blockNum - e.blockNumber) :
    ingressStep minB maxB rav applyEvent blockNum avail e =
      (false, avail,
        [match applyEvent e with
         | .ok _ => EventEmit.processed e
         | .error r => EventEmit.failedProcessing e r]) := by
  unfold ingressStep
  rw [if_pos (by omega : minB ≤ blockNum - e.blockNumber), if_pos hd]
  cases happ : applyEvent e <;> simp [happ, Nat.zero_le]

/-- Too-young entries survive an ingression round with their multiplicity
intact and are never the subject of a deposited runtime event. -/
theorem ingressRun_keeps_young (minB maxB : Nat)
    (rav : ChainBlockEvent → Nat → Except Reason Nat)
    (applyEvent : ChainBlockEvent → Except Reason Unit) (blockNum : Nat)
    (e : ChainBlockEvent) (he : blockNum - e.blockNumber < minB) :
    ∀ (q : List ChainBlockEvent) (avail : Nat),
      (ingressRunAux minB maxB rav applyEvent blockNum avail q).1.count e = q.count e ∧
      ∀ em ∈ (ingressRunAux minB maxB rav applyEvent blockNum avail q).2,
        emitEvent em ≠ e := by
  intro q
  induction q with
  | nil => intro avail; simp [ingressRunAux_nil]
  | cons e1 rest ih =>
    intro avail
    rw [ingressRunAux_cons]
    by_cases h1 : e1 = e
    · subst h1
      rw [step_too_young minB maxB rav applyEvent blockNum avail e1 he]
      constructor
      · simp [List.count_cons, (ih avail).1]
      · simpa using (ih avail).2
    · constructor
      · have hc : ∀ l : List ChainBlockEvent, (e1 :: l).count e = l.count e := by
          intro l
          simp [List.count_cons, h1]
        split
        · rw [hc]
          exact (ih _).1.trans (hc rest).symm
        · exact (ih _).1.trans (hc rest).symm
      · intro em hm
        rcases List.mem_append.mp hm with hm1 | hm2
        · rw [step_emits_self minB maxB rav applyEvent blockNum avail e1 em hm1]
          exact h1
        · exact (ih _).2 em hm2

/-- Entries beyond `MAX_EVENT_BLOCKS` never survive an ingression round. -/
theorem ingressRun_drops_old (minB maxB : Nat)
    (rav : ChainBlockEvent → Nat → Except Reason Nat)
    (applyEvent : ChainBlockEvent → Except Reason Unit) (blockNum : Nat)
    (e : ChainBlockEvent) (hmx : minB ≤ maxB) (hd : maxB < blockNum - e.blockNumber) :
    ∀ (q : List ChainBlockEvent) (avail : Nat),
      e ∉ (ingressRunAux minB maxB rav applyEvent blockNum avail q).1 := by
  intro q
  induction q with
  | nil => intro avail; simp [ingressRunAux_nil]
  | cons e1 rest ih =>
    intro avail
    rw [ingressRunAux_cons]
    by_cases h1 : e1 = e
    · subst h1
      rw [step_beyond_max minB maxB rav applyEvent blockNum avail e1 hmx hd]
      simpa using ih avail
    · split
      · simp only [List.mem_cons, not_or]
        exact ⟨fun hc => h1 hc.symm, ih _⟩
      · exact ih _

/-- Claim C4: maturity boundaries of an `ingress_queue` round at block
number `blockNum`, writing Δ for the saturating difference between
`blockNum` and the block number of the event. (a) Δ < `MIN_EVENT_BLOCKS`: the
event is retained unprocessed — its multiplicity on the queue is unchanged
and no runtime event about it is deposited. (b) Δ = `MIN_EVENT_BLOCKS`
exactly: the event is eligible — whenever its risk value is granted and
fits the quota it is removed and its application attempted. (c) Δ >
`MAX_EVENT_BLOCKS` (for a maturity window with min ≤ max): the risk value
is pinned to 0 and the event is accepted — removed from the queue with the
ledger application attempted, the quota unchanged, and the risk oracle
(hence any asset price) never consulted. -/
theorem claim_C4_maturity_boundaries (minB maxB : Nat)
    (rav : ChainBlockEvent → Nat → Except Reason Nat)
    (applyEvent : ChainBlockEvent → Except Reason Unit) (blockNum : Nat) :
    (∀ (avail : Nat) (q : List ChainBlockEvent) (e : ChainBlockEvent),
      blockNum - e.blockNumber < minB →
      (ingressRunAux minB maxB rav applyEvent blockNum avail q).1.count e = q.count e ∧
      ∀ em ∈ (ingressRunAux minB maxB rav applyEvent blockNum avail q).2,
        emitEvent em ≠ e) ∧
    (∀ (avail : Nat) (e : ChainBlockEvent) (v : Nat),
      blockNum - e.blockNumber = minB → rav e blockNum = .ok v → v ≤ avail →
      (ingressStep minB maxB rav applyEvent blockNum avail e).1 = false ∧
      (ingressStep minB maxB rav applyEvent blockNum avail e).2.2 ≠ []) ∧
    (minB ≤ maxB →
      ∀ (avail : Nat) (e : ChainBlockEvent), maxB < blockNum - e.blockNumber →
        ingressStep minB maxB rav applyEvent blockNum avail e =
          (false, avail,
            [match applyEvent e with
             | .ok _ => EventEmit.processed e
             | .error r => EventEmit.failedProcessing e r]) ∧
        ∀ (q : List ChainBlockEvent),
          e ∉ (ingressRunAux minB maxB rav applyEvent blockNum avail q).1) := by
  refine ⟨?_, ?_, ?_⟩
  · intro avail q e he
    exact ingressRun_keeps_young minB maxB rav applyEvent blockNum e he q avail
  · intro avail e v hd hrav hv
    unfold ingressStep
    rw [if_pos (by omega)]
    by_cases hmx : maxB < blockNum - e.blockNumber
    · rw [if_pos hmx]
      cases happ : applyEvent e <;> simp [happ, Nat.zero_le]
    · rw [if_neg hmx, hrav]
      cases happ : applyEvent e <;> simp [happ, hv]
  · intro hmx avail e hd
    refine ⟨step_beyond_max minB maxB rav applyEvent blockNum avail e hmx hd, ?_⟩
    intro q
    exact ingressRun_drops_old minB maxB rav applyEvent blockNum e hmx hd q avail

/-- Witness for C4 at concrete inputs: with a window of [3, 10] at block 20,
an event from block 19 (Δ = 1) is retained, an event from block 17 (Δ = 3)
is accepted, and an event from block 0 (Δ = 20) is dropped. -/
theorem claim_C4_witness :
    (ingressRunAux 3 10 ravZero applyOk 20 100 [evYoung]).1.count evYoung =
      ([evYoung] : List ChainBlockEvent).count evYoung ∧
    (ingressStep 3 10 ravZero applyOk 20 100 evExact).1 = false ∧
    evOld ∉ (ingressRunAux 3 10 ravZero applyOk 20 100 [evOld]).1 :=
  ⟨((claim_C4_maturity_boundaries 3 10 ravZero applyOk 20).1 100 [evYoung] evYoung
      (by decide)).1,
    ((claim_C4_maturity_boundaries 3 10 ravZero applyOk 20).2.1 100 evExact 0
      (by decide) (by decide) (by decide)).1,
    (((claim_C4_maturity_boundaries 3 10 ravZero applyOk 20).2.2 (by decide) 100 evOld
      (by decide)).2 [evOld])⟩

/-- Counterexample to C5 as stated: an event beyond `MAX_EVENT_BLOCKS` whose
risk-adjusted value cannot be computed (the oracle errors on it) is not
retained — the over-age bypass accepts it without consulting the oracle, so
the queue comes back empty. (Window [0, 5], event from block 0 at block 10,
so Δ = 10 > 5.) -/
theorem claim_C5_counterexample :
    ravErr evOld 10 = .error .Unreachable ∧
    (ingressRunAux 0 5 ravErr applyOk 10 100 [evOld]).1 = [] := by
  constructor
  · rfl
  · rfl

/-- Claim C5 (amended: the conservative retention on a risk-oracle error
only concerns events inside the maturity window, Δ ≤ `MAX_EVENT_BLOCKS`;
beyond it the oracle is bypassed and the event accepted, see the
counterexample): (a) for a mature event whose granted risk value fits the
remaining quota, a ledger-application failure is not propagated — the event
is removed from the queue, the quota is charged, and a
`FailedProcessingChainBlockEvent` is deposited; (b) `ingress_queue` itself
never returns an error; (c) a mature event inside the window whose
risk-adjusted value cannot be computed is retained, with no quota change
and nothing deposited. -/
theorem claim_C5_amended (minB maxB : Nat)
    (rav : ChainBlockEvent → Nat → Except Reason Nat)
    (applyEvent : ChainBlockEvent → Except Reason Unit) (blockNum : Nat) :
    (∀ (avail : Nat) (e : ChainBlockEvent) (v : Nat) (r : Reason),
      minB ≤ blockNum - e.blockNumber →
      (if maxB < blockNum - e.blockNumber then Except.ok 0 else rav e blockNum) =
        .ok v →
      v ≤ avail → applyEvent e = .error r →
      ingressStep minB maxB rav applyEvent blockNum avail e =
        (false, avail - v, [.failedProcessing e r])) ∧
    (∀ (quota : Nat) (q : List ChainBlockEvent), ∃ out,
      ingressQueue minB maxB rav applyEvent blockNum quota q = .ok out) ∧
    (∀ (avail : Nat) (e : ChainBlockEvent) (er : Reason),
      minB ≤ blockNum - e.blockNumber → blockNum - e.blockNumber ≤ maxB →
      rav e blockNum = .error er →
      ingressStep minB maxB rav applyEvent blockNum avail e = (true, avail, [])) := by
  refine ⟨?_, ?_, ?_⟩
  · intro avail e v r hmin hrisk hv happ
    unfold ingressStep
    rw [if_pos hmin, hrisk]
    simp [hv, happ]
  · intro quota q
    exact ⟨_, rfl⟩
  · intro avail e er hmin hmax herr
    unfold ingressStep
    rw [if_pos hmin, if_neg (by omega), herr]

/-- Witness for C5 at concrete inputs: a failing ledger application drops
the event with a failure notice; a failing risk oracle inside the window
retains it; the round as a whole returns Ok. -/
theorem claim_C5_witness :
    ingressStep 3 10 ravZero applyFail 20 100 evExact =
      (false, 100 - 0, [.failedProcessing evExact (.other 0)]) ∧
    (∃ out, ingressQueue 3 10 ravZero applyFail 20 100 [evExact] = .ok out) ∧
    ingressStep 3 10 ravErr applyOk 20 100 evExact = (true, 100, []) :=
  ⟨(claim_C5_amended 3 10 ravZero applyFail 20).1 100 evExact 0 (.other 0)
      (by decide) (by decide) (by decide) (by decide),
    (claim_C5_amended 3 10 ravZero applyFail 20).2.1 100 [evExact],
    (claim_C5_amended 3 10 ravErr applyOk 20).2.2 100 evExact .Unreachable
      (by decide) (by decide) (by decide)⟩

theorem insertSet_idem (v : Nat) (s : List Nat) :
    insertSet v (insertSet v s) = insertSet v s := by
  by_cases h : v ∈ s
  · simp [insertSet, h]
  · simp [insertSet, h]

theorem addSupport_idem (v : Nat) (t : ChainBlockTally) :
    addSupport v (addSupport v t) = addSupport v t := by
  simp [addSupport, insertSet_idem]

theorem addDissent_idem (v : Nat) (t : ChainBlockTally) :
    addDissent v (addDissent v t) = addDissent v t := by
  simp [addDissent, insertSet_idem]

theorem addSupport_new (v : Nat) (b : ChainBlock) :
    addSupport v (ChainBlockTally.new b v) = ChainBlockTally.new b v := by
  simp [addSupport, ChainBlockTally.new, insertSet]

/-- Handling the same single block twice by the same validator is a no-op
the second time on the pending tallies: votes land on the tally the first
pass created or updated, and set insertion is idempotent. -/
theorem processBlock_idem (lastB : ChainBlock) (v : Nat) (p : List ChainBlockTally)
    (b : ChainBlock) :
    processBlock lastB v (processBlock lastB v p b) b = processBlock lastB v p b := by
  by_cases hnum : lastB.number + 1 ≤ b.number
  · cases hget : p.get? (b.number - lastB.number - 1) with
    | some prior =>
      by_cases hb : b ≠ prior.block
      · have h1 : processBlock lastB v p b =
            p.set (b.number - lastB.number - 1) (addDissent v prior) := by
          unfold processBlock
          rw [if_pos hnum]
          simp only [hget]
          rw [if_pos hb]
        rw [h1]
        unfold processBlock
        rw [if_pos hnum]
        have hget2 := get?_set_self p (b.number - lastB.number - 1) prior
          (addDissent v prior) hget
        simp only [hget2]
        rw [if_pos (by simpa [addDissent] using hb), List.set_set]
        have : addDissent v (addDissent v prior) = addDissent v prior :=
          addDissent_idem v prior
        rw [this]
      · have h1 : processBlock lastB v p b =
            p.set (b.number - lastB.number - 1) (addSupport v prior) := by
          unfold processBlock
          rw [if_pos hnum]
          simp only [hget]
          rw [if_neg hb]
        rw [h1]
        unfold processBlock
        rw [if_pos hnum]
        have hget2 := get?_set_self p (b.number - lastB.number - 1) prior
          (addSupport v prior) hget
        simp only [hget2]
        rw [if_neg (by simpa [addSupport] using hb), List.set_set]
        have : addSupport v (addSupport v prior) = addSupport v prior :=
          addSupport_idem v prior
        rw [this]
    | none =>
      by_cases hoff : b.number - lastB.number - 1 = 0
      · by_cases hpar : b.parentHash ≠ lastB.hash
        · have h1 : processBlock lastB v p b = p := by
            unfold processBlock
            rw [if_pos hnum]
            simp only [hget]
            rw [if_pos hoff, if_pos hpar]
          rw [h1, h1]
        · have hp : p = [] := by
            have hl := length_le_of_get?_none hget
            rw [hoff] at hl
            exact List.eq_nil_of_length_eq_zero (Nat.le_zero.mp hl)
          subst hp
          have h1 : processBlock lastB v [] b = [ChainBlockTally.new b v] := by
            unfold processBlock
            rw [if_pos hnum]
            simp only [hget]
            rw [if_pos hoff, if_neg hpar]
            rfl
          rw [h1]
          unfold processBlock
          rw [if_pos hnum]
          have hget2 : ([ChainBlockTally.new b v].get? (b.number - lastB.number - 1)) =
              some (ChainBlockTally.new b v) := by
            rw [hoff]
            rfl
          simp only [hget2]
          rw [if_neg (by simp [ChainBlockTally.new]), hoff]
          simp [addSupport_new, List.set]
      · cases hgetp : p.get? (b.number - lastB.number - 1 - 1) with
        | some parent =>
          by_cases hpar : b.parentHash ≠ parent.block.hash
          · have h1 : processBlock lastB v p b = p := by
              unfold processBlock
              rw [if_pos hnum]
              simp only [hget]
              rw [if_neg hoff]
              simp only [hgetp]
              rw [if_pos hpar]
            rw [h1, h1]
          · have hlen : p.length = b.number - lastB.number - 1 := by
              have h2 := length_le_of_get?_none hget
              have h3 := lt_length_of_get?_some hgetp
              omega
            have h1 : processBlock lastB v p b = p ++ [ChainBlockTally.new b v] := by
              unfold processBlock
              rw [if_pos hnum]
              simp only [hget]
              rw [if_neg hoff]
              simp only [hgetp]
              rw [if_neg hpar]
            rw [h1]
            unfold processBlock
            rw [if_pos hnum]
            have hget2 : (p ++ [ChainBlockTally.new b v]).get?
                (b.number - lastB.number - 1) = some (ChainBlockTally.new b v) := by
              rw [← hlen]
              exact List.get?_concat_length p (ChainBlockTally.new b v)
            simp only [hget2]
            rw [if_neg (by simp [ChainBlockTally.new]), addSupport_new, ← hlen,
              set_concat_self]
        | none =>
          have h1 : processBlock lastB v p b = p := by
            unfold processBlock
            rw [if_pos hnum]
            simp only [hget]
            rw [if_neg hoff]
            simp only [hgetp]
          rw [h1, h1]
  · have h1 : processBlock lastB v p b = p := by
      unfold processBlock
      rw [if_neg hnum]
    rw [h1, h1]

/-- Counterexample to C7 as stated: the same two-block message `[blk3, blk2]`
(out of order) submitted twice by the same validator changes the state the
second time — `blk3` is ignored as disconnected on the first pass, but on
the second pass its parent tally (created for `blk2` by the first call)
exists, so a new tally is created. No quorum predicate fires at any point. -/
theorem claim_C7_counterexample :
    receiveChainBlocks envNQ [7] 7 [blk3, blk2]
        (receiveChainBlocks envNQ [7] 7 [blk3, blk2] st0) ≠
      receiveChainBlocks envNQ [7] 7 [blk3, blk2] st0 := by
  decide

/-- Claim C7 (amended: restricted to a single-block message whose first
submission triggers no quorum transition — the advance loop leaves the
state unchanged. The counterexample shows the unrestricted claim fails: a
repeated multi-block message can create a tally it previously skipped, and
a quorum transition fired by the first call can likewise make the second
call observable): submitting the same message twice by the same validator
leaves all per-chain state unchanged after the second call, because support
and dissent insertion are idempotent on sets. -/
theorem claim_C7_amended (env : Env) (vset : List Nat) (v : Nat) (b : ChainBlock)
    (s : ChainState)
    (hadv : advanceTallies env vset (processBlock s.lastBlock v s.pendingBlocks b)
        s.lastBlock s.eventQueue =
      ⟨processBlock s.lastBlock v s.pendingBlocks b, s.lastBlock, s.eventQueue, []⟩) :
    receiveChainBlocks env vset v [b] (receiveChainBlocks env vset v [b] s) =
      receiveChainBlocks env vset v [b] s := by
  have h1 : receiveChainBlocks env vset v [b] s =
      { lastBlock := s.lastBlock,
        pendingBlocks := processBlock s.lastBlock v s.pendingBlocks b,
        pendingReorgs := s.pendingReorgs, eventQueue := s.eventQueue } := by
    unfold receiveChainBlocks
    simp only [List.foldl_cons, List.foldl_nil]
    rw [hadv]
  rw [h1]
  unfold receiveChainBlocks
  simp only [List.foldl_cons, List.foldl_nil]
  rw [processBlock_idem s.lastBlock v s.pendingBlocks b, hadv]

/-- Witness for C7 (amended) at a concrete input: the single valid block
`blk2` submitted twice with no quorum. -/
theorem claim_C7_witness :
    receiveChainBlocks envNQ [7] 7 [blk2] (receiveChainBlocks envNQ [7] 7 [blk2] st0) =
      receiveChainBlocks envNQ [7] 7 [blk2] st0 :=
  claim_C7_amended envNQ [7] 7 blk2 st0 (by decide)

/-- The final last block of the forward phase is the last forward block
(or the incoming last block when there are none); it does not depend on the
queue contents. -/
theorem forwardRun_last (env : Env) (bs : List ChainBlock) :
    ∀ (lastB : ChainBlock) (q : List ChainBlockEvent),
      (forwardRun env bs lastB q).1 = bs.getLastD lastB := by
  induction bs with
  | nil => intro lastB q; rfl
  | cons b rest ih =>
    intro lastB q
    rw [List.getLastD_cons]
    exact ih b _

/-- Counterexample to C2 as stated: a reorg message with quorum support
whose `to_hash` is unrelated to its (empty) forward path is accepted with
Ok, yet the stored last processed block keeps its old hash, which differs
from `to_hash`. Nothing ties `to_hash` to the applied forward blocks. -/
theorem claim_C2_counterexample :
    envRQ.hasEnoughReorgSupport (votedTally 7 rgEmpty st0.pendingReorgs) [7] = true ∧
    receiveChainReorg envRQ [7] 7 rgEmpty st0 =
      .ok ⟨blk1, [], [], []⟩ ∧
    (⟨blk1, [], [], []⟩ : ChainState).lastBlock.hash ≠ rgEmpty.toHash := by
  refine ⟨rfl, by decide, by decide⟩

/-- Claim C2 (amended: after a reorg with quorum support returns Ok, both
`PendingChainBlocks` and `PendingChainReorgs` are stored empty, and the
stored `LastProcessedBlock` is the final element of the
`forward_blocks` of the message (unchanged when that list is empty) — so its hash equals
`to_hash` exactly when the last forward block carries that hash, which the
receiver does not check; see the counterexample). -/
theorem claim_C2_amended (env : Env) (vset : List Nat) (v : Nat)
    (reorg : ChainReorg) (s s1 : ChainState)
    (hq : env.hasEnoughReorgSupport (votedTally v reorg s.pendingReorgs) vset = true)
    (hok : receiveChainReorg env vset v reorg s = .ok s1) :
    s1.pendingBlocks = [] ∧ s1.pendingReorgs = [] ∧
      s1.lastBlock = reorg.forwardBlocks.getLastD s.lastBlock := by
  unfold receiveChainReorg at hok
  by_cases hfrom : reorg.fromHash ≠ s.lastBlock.hash
  · rw [if_pos hfrom] at hok
    exact absurd hok (by simp)
  · rw [if_neg hfrom, if_pos hq] at hok
    cases hrev : revertBlocks env.unapplyEvent s.eventQueue reorg.reverseBlocks with
    | error r =>
      simp [hrev] at hok
    | ok q1 =>
      simp only [hrev] at hok
      have hs1 := Except.ok.inj hok
      rw [← hs1]
      exact ⟨rfl, rfl, forwardRun_last env reorg.forwardBlocks s.lastBlock q1⟩

/-- Witness for C2 (amended) at a concrete input: a quorum-supported reorg
with a single forward block becomes the stored last processed block and
both pending collections are reset. -/
theorem claim_C2_witness :
    (⟨blk2, [], [], []⟩ : ChainState).pendingBlocks = [] ∧
      (⟨blk2, [], [], []⟩ : ChainState).pendingReorgs = [] ∧
      (⟨blk2, [], [], []⟩ : ChainState).lastBlock =
        rgFwd.forwardBlocks.getLastD st0.lastBlock :=
  claim_C2_amended envRQ [7] 7 rgFwd st0 ⟨blk2, [], [], []⟩ rfl (by decide)

/-- Every error produced by the backward walk is a block mismatch, an
arithmetic underflow, a missing recalled block, or an error propagated from
the fetcher. -/
theorem walk_error_classification (fe : FormulateEnv) (firstNum : Nat) :
    ∀ (fuel : Nat) (rev fwd : ChainBlock) (ra fa : List ChainBlock) (r : Reason),
      walkAux fe firstNum fuel rev fwd ra fa = some (.error r) →
      r = .BlockMismatch ∨ r = .MathUnderflow ∨ r = .MissingBlock ∨
        ∃ n, fe.fetch n = .error r := by
  intro fuel
  induction fuel with
  | zero => intro rev fwd ra fa r h; simp [walkAux] at h
  | succ n ih =>
    intro rev fwd ra fa r h
    rw [walkAux] at h
    by_cases h1 : rev.number ≠ fwd.number
    · rw [if_pos h1] at h
      simp only [Option.some.injEq, Except.error.injEq] at h
      exact Or.inl h.symm
    · rw [if_neg h1] at h
      by_cases h2 : fwd.number = 0
      · rw [if_pos h2] at h
        simp only [Option.some.injEq, Except.error.injEq] at h
        exact Or.inr (Or.inl h.symm)
      · rw [if_neg h2] at h
        cases hrec : fe.recallBlock rev.parentHash with
        | none =>
          simp only [hrec, Option.some.injEq, Except.error.injEq] at h
          exact Or.inr (Or.inr (Or.inl h.symm))
        | some rev2 =>
          simp only [hrec] at h
          cases hf : fe.fetch (fwd.number - 1) with
          | error rf =>
            simp only [hf, Option.some.injEq, Except.error.injEq] at h
            subst h
            exact Or.inr (Or.inr (Or.inr ⟨fwd.number - 1, hf⟩))
          | ok fwd2 =>
            simp only [hf] at h
            by_cases h3 : rev2.parentHash = fwd2.parentHash
            · rw [if_pos h3] at h
              simp at h
            · rw [if_neg h3] at h
              by_cases h4 : rev2.number = firstNum
              · rw [if_pos h4] at h
                simp at h
              · rw [if_neg h4] at h
                exact ih rev2 fwd2 _ _ r h

/-- Counterexample to C8 as stated: with both heads at height 0, the walk
fails with an arithmetic underflow (`checked_sub` of the next height), an
error outside the claimed set. -/
theorem claim_C8_counterexample :
    formulateReorg 1 feUF 0 zb1 zb2 = some (.error .MathUnderflow) ∧
      Reason.MathUnderflow ≠ .BlockMismatch ∧
      Reason.MathUnderflow ≠ .MissingBlock ∧
      Reason.MathUnderflow ≠ .Unreachable := by
  exact ⟨rfl, by decide⟩

/-- Claim C8 (amended: the error set also contains the arithmetic Underflow
raised when the walk would step below height 0, and any error propagated
verbatim from the external block fetcher; see the counterexample): every
failure of `formulate_reorg` is `BlockMismatch`, `MissingBlock`,
`Unreachable`, Underflow, or a fetcher error. -/
theorem claim_C8_amended (fuel : Nat) (fe : FormulateEnv) (firstNum : Nat)
    (lb tb : ChainBlock) (r : Reason)
    (h : formulateReorg fuel fe firstNum lb tb = some (.error r)) :
    r = .BlockMismatch ∨ r = .MissingBlock ∨ r = .Unreachable ∨
      r = .MathUnderflow ∨ ∃ n, fe.fetch n = .error r := by
  unfold formulateReorg at h
  cases hwa : walkAux fe firstNum fuel lb tb [lb] [tb] with
  | none => rw [hwa] at h; exact absurd h (by simp)
  | some res =>
    rw [hwa] at h
    cases res with
    | error r0 =>
      simp only [Option.some.injEq, Except.error.injEq] at h
      subst h
      rcases walk_error_classification fe firstNum fuel lb tb [lb] [tb] r0 hwa with
        h1 | h2 | h3 | h4
      · exact Or.inl h1
      · exact Or.inr (Or.inr (Or.inr (Or.inl h2)))
      · exact Or.inr (Or.inl h3)
      · exact Or.inr (Or.inr (Or.inr (Or.inr h4)))
    | ok pr =>
      obtain ⟨rev, fwd⟩ := pr
      cases hl : lb.hash with
      | eth f =>
        cases ht : tb.hash with
        | eth t =>
          rw [hl, ht] at h
          simp at h
        | matic t =>
          rw [hl, ht] at h
          simp only [Option.some.injEq, Except.error.injEq] at h
          exact Or.inr (Or.inr (Or.inl h.symm))
      | matic f =>
        cases ht : tb.hash with
        | eth t =>
          rw [hl, ht] at h
          simp only [Option.some.injEq, Except.error.injEq] at h
          exact Or.inr (Or.inr (Or.inl h.symm))
        | matic t =>
          rw [hl, ht] at h
          simp only [Option.some.injEq, Except.error.injEq] at h
          exact Or.inr (Or.inr (Or.inl h.symm))

/-- Witness for C8 (amended) at a concrete input: the underflow failure is
in the amended error set. -/
theorem claim_C8_witness :
    Reason.MathUnderflow = .BlockMismatch ∨ Reason.MathUnderflow = .MissingBlock ∨
      Reason.MathUnderflow = .Unreachable ∨ Reason.MathUnderflow = .MathUnderflow ∨
      ∃ n, feUF.fetch n = .error .MathUnderflow :=
  claim_C8_amended 1 feUF 0 zb1 zb2 .MathUnderflow (by decide)

/-- Under height-honest oracles the walk consumes at most
`rev.number - firstNum + 1` iterations before ending with a result or an
error; `hgt` assigns each hash the height of the block it names. -/
theorem walk_terminates (fe : FormulateEnv) (hgt : ChainHash → Nat) (firstNum : Nat)
    (hrec1 : ∀ h b, fe.recallBlock h = some b → b.number = hgt h)
    (hrec2 : ∀ h b, fe.recallBlock h = some b → firstNum < b.number →
      hgt b.parentHash + 1 = b.number) :
    ∀ (fuel : Nat) (rev fwd : ChainBlock) (ra fa : List ChainBlock),
      hgt rev.parentHash + 1 = rev.number → firstNum < rev.number →
      rev.number - firstNum + 1 ≤ fuel →
      walkAux fe firstNum fuel rev fwd ra fa ≠ none := by
  intro fuel
  induction fuel with
  | zero =>
    intro rev fwd ra fa hinv hlt hb
    exact absurd hb (by omega)
  | succ n ih =>
    intro rev fwd ra fa hinv hlt hb
    rw [walkAux]
    by_cases h1 : rev.number ≠ fwd.number
    · rw [if_pos h1]; simp
    · rw [if_neg h1]
      by_cases h2 : fwd.number = 0
      · rw [if_pos h2]; simp
      · rw [if_neg h2]
        cases hrec : fe.recallBlock rev.parentHash with
        | none => simp [hrec]
        | some rev2 =>
          simp only [hrec]
          cases hf : fe.fetch (fwd.number - 1) with
          | error rf => simp [hf]
          | ok fwd2 =>
            simp only [hf]
            by_cases h3 : rev2.parentHash = fwd2.parentHash
            · rw [if_pos h3]; simp
            · rw [if_neg h3]
              by_cases h4 : rev2.number = firstNum
              · rw [if_pos h4]; simp
              · rw [if_neg h4]
                have hr2num : rev2.number = hgt rev.parentHash :=
                  hrec1 _ _ hrec
                have hlt2 : firstNum < rev2.number := by omega
                have hinv2 : hgt rev2.parentHash + 1 = rev2.number :=
                  hrec2 _ _ hrec hlt2
                exact ih rev2 fwd2 _ _ hinv2 hlt2 (by omega)

/-- When the walk does not run out of budget, `formulate_reorg` produces
some result (a reorg or an error). -/
theorem formulateReorg_total (fuel : Nat) (fe : FormulateEnv) (firstNum : Nat)
    (lb tb : ChainBlock)
    (hw : walkAux fe firstNum fuel lb tb [lb] [tb] ≠ none) :
    ∃ r, formulateReorg fuel fe firstNum lb tb = some r := by
  unfold formulateReorg
  cases hwa : walkAux fe firstNum fuel lb tb [lb] [tb] with
  | none => exact absurd hwa hw
  | some res =>
    cases res with
    | error r => exact ⟨.error r, rfl⟩
    | ok pr =>
      obtain ⟨rev, fwd⟩ := pr
      cases lb.hash <;> cases tb.hash
      all_goals exact ⟨_, rfl⟩

/-- Counterexample to C9 as stated: in a height-honest environment with
`first_block.number = last_block.number = 2`, the walk succeeds — but only
at its second iteration, exceeding the claimed bound of
`last_block.number - first_block.number + 1 = 1` iterations: with exactly
that iteration budget the walk does not complete. -/
theorem claim_C9_counterexample :
    (∃ r, formulateReorg 2 fe9 2 lb9 tb9 = some (Except.ok r)) ∧
      formulateReorg (lb9.number - 2 + 1) fe9 2 lb9 tb9 = none := by
  exact ⟨⟨_, rfl⟩, rfl⟩

/-- Claim C9 (amended: the bound holds under the height-honesty assumption
presumed by the parenthetical of the claim — the recall cache returns the
parent one height below its child, expressed through a height assignment
`hgt` on hashes — together with `first_block.number < last_block.number`; the
counterexample shows a successful run needing more iterations when
`first_block.number = last_block.number`): under these assumptions the
backward walk completes, successfully or with an error, within
`last_block.number - first_block.number + 1` iterations, so
`formulate_reorg` terminates with that iteration budget. -/
theorem claim_C9_amended (fe : FormulateEnv) (hgt : ChainHash → Nat)
    (firstNum : Nat) (lb tb : ChainBlock)
    (hrec1 : ∀ h b, fe.recallBlock h = some b → b.number = hgt h)
    (hrec2 : ∀ h b, fe.recallBlock h = some b → firstNum < b.number →
      hgt b.parentHash + 1 = b.number)
    (hlb : hgt lb.parentHash + 1 = lb.number)
    (hfb : firstNum < lb.number) :
    ∃ r, formulateReorg (lb.number - firstNum + 1) fe firstNum lb tb = some r :=
  formulateReorg_total _ fe firstNum lb tb
    (walk_terminates fe hgt firstNum hrec1 hrec2 _ lb tb [lb] [tb]
      hlb hfb (Nat.le_refl _))

/-- Witness for C9 (amended) at a concrete input: the honest environment
`feH` with first block height 1 under the head `lbH` at height 2. -/
theorem claim_C9_witness :
    ∃ r, formulateReorg (lbH.number - 1 + 1) feH 1 lbH tbH = some r := by
  refine claim_C9_amended feH hgtH 1 lbH tbH ?_ ?_ (by decide) (by decide)
  · intro hsh b hr
    have hr2 : (if hsh = .eth 99 then some (ChainBlock.eth ⟨1, 99, 98, []⟩)
        else none) = some b := hr
    by_cases hh : hsh = .eth 99
    · rw [if_pos hh] at hr2
      rw [← Option.some.inj hr2, hh]
      rfl
    · rw [if_neg hh] at hr2
      exact absurd hr2 (by simp)
  · intro hsh b hr hlt
    have hr2 : (if hsh = .eth 99 then some (ChainBlock.eth ⟨1, 99, 98, []⟩)
        else none) = some b := hr
    by_cases hh : hsh = .eth 99
    · rw [if_pos hh] at hr2
      rw [← Option.some.inj hr2] at hlt
      exact absurd hlt (by decide)
    · rw [if_neg hh] at hr2
      exact absurd hr2 (by simp)

/-- Claim C10: for a pair of head blocks whose hashes are not both Eth
variants — in particular for two Matic heads — `formulate_reorg` never
returns a reorg: no iteration budget makes it return Ok, and whenever the
backward walk itself completes, the result is the `Unreachable` error. Reorg
formulation is therefore only possible for the Eth chain. -/
theorem claim_C10_eth_only_reorg (fuel : Nat) (fe : FormulateEnv) (firstNum : Nat)
    (lb tb : ChainBlock)
    (h : ¬(lb.hash.isEth = true ∧ tb.hash.isEth = true)) :
    (∀ r, formulateReorg fuel fe firstNum lb tb ≠ some (.ok r)) ∧
    (∀ pr, walkAux fe firstNum fuel lb tb [lb] [tb] = some (.ok pr) →
      formulateReorg fuel fe firstNum lb tb = some (.error .Unreachable)) := by
  constructor
  · intro r hr
    unfold formulateReorg at hr
    cases hwa : walkAux fe firstNum fuel lb tb [lb] [tb] with
    | none => rw [hwa] at hr; exact absurd hr (by simp)
    | some res =>
      rw [hwa] at hr
      cases res with
      | error r0 => simp at hr
      | ok pr =>
        obtain ⟨rev, fwd⟩ := pr
        cases hl : lb.hash with
        | eth f =>
          cases ht : tb.hash with
          | eth t =>
            exact h ⟨by rw [hl]; rfl, by rw [ht]; rfl⟩
          | matic t =>
            rw [hl, ht] at hr
            simp at hr
        | matic f =>
          cases ht : tb.hash with
          | eth t =>
            rw [hl, ht] at hr
            simp at hr
          | matic t =>
            rw [hl, ht] at hr
            simp at hr
  · intro pr hw
    unfold formulateReorg
    rw [hw]
    obtain ⟨rev, fwd⟩ := pr
    cases hl : lb.hash with
    | eth f =>
      cases ht : tb.hash with
      | eth t =>
        exact absurd ⟨by rw [hl]; rfl, by rw [ht]; rfl⟩ h
      | matic t => rfl
    | matic f =>
      cases ht : tb.hash with
      | eth t => rfl
      | matic t => rfl

/-- Witness for C10 at a concrete input: a Matic head pair in an environment
whose walk completes at the first iteration still yields `Unreachable`. -/
theorem claim_C10_witness :
    formulateReorg 2 fe10 0 mlb mtb = some (.error .Unreachable) :=
  (claim_C10_eth_only_reorg 2 fe10 0 mlb mtb (by decide)).2
    ([mlb, .matic ⟨0, 5, 0, []⟩], [mtb, .matic ⟨0, 6, 0, []⟩]) (by decide)

end Gateway
